import Mathlib

/-
Verification of the warp HTTP router (pattern matching, route priority
resolution, route registry).  The definitions below are shallow embeddings
of the Go source: the linear-scan ServeMux (pathMatch, captureName,
captureValue, addRoute, hasImplicitRoute, handler, match), the Route type
(route.go), the method rule (rules.go) and the contains helper (util.go).
Go strings are modelled as Lean String values; Go rune slices as List Char;
Go url.Values as an insertion-ordered association list from key to the list
of values added under that key; a Go nil handler as Option.none; a Go panic
as an Option.none result of the registering operation.
-/

namespace Warp

/-- Abstract model of the http.Handler values occurring in the mux:
user-registered handlers (identified by a number), handlers produced by
http.RedirectHandler (target URL and status code), and http.NotFoundHandler. -/
inductive GoHandler where
  | user (id : Nat)
  | redirectHandler (target : String) (code : Nat)
  | notFoundHandler
deriving DecidableEq, Repr

/-- Model of an http.Request restricted to the fields the mux consults:
the method and the host. -/
structure Request where
  method : String
  host : String
deriving DecidableEq, Repr

/-- Model of the rule interface of rules.go; methodRule is its only
implementation in the repository. -/
inductive Rule where
  | methodRule (methods : List String)
deriving DecidableEq, Repr

/-- contains, from util.go: true if the slice contains the value. -/
def contains : List String → String → Bool
  | [], _ => false
  | item :: rest, value => if item = value then true else contains rest value

/-- Model of Go strings.ToUpper as used on HTTP method names; agrees with
Go on the ASCII strings that HTTP methods are made of. -/
def goToUpper (s : String) : String := String.mk (s.data.map Char.toUpper)

/-- NewMethodRule, from rules.go: upper-cases every given method name at
construction and stores the set. -/
def NewMethodRule (methods : List String) : Rule :=
  Rule.methodRule (methods.map goToUpper)

/-- methodRule.Allows, from rules.go: the request is allowed iff its
method is a member of the stored set. -/
def Rule.allows : Rule → Request → Bool
  | Rule.methodRule methods, request => contains methods request.method

/-- Route, from route.go: report pattern, handler, implicit flag, rules.
The handler is an Option because a Go handler reference may be nil. -/
structure Route where
  pattern : String
  handler : Option GoHandler
  implicit : Bool
  rules : List Rule
deriving DecidableEq, Repr

/-- NewRoute, from route.go: a fresh explicit route. -/
def NewRoute (pattern : String) (handler : Option GoHandler) (rules : List Rule) : Route :=
  { pattern := pattern, handler := handler, implicit := false, rules := rules }

/-- Route.Allows, from route.go: every rule of the route must allow the
request (an empty rule list allows everything). -/
def Route.allows (route : Route) (request : Request) : Bool :=
  route.rules.all fun rule => rule.allows request

/-- Values.Add of Go url.Values: append the value to the slice stored
under the key, creating the slot when absent. -/
def valuesAdd : List (String × List String) → String → String → List (String × List String)
  | [], key, value => [(key, [value])]
  | (k, vs) :: rest, key, value =>
    if k = key then (k, vs ++ [value]) :: rest
    else (k, vs) :: valuesAdd rest key value

/-- Lookup of the value slice stored under a key in a url.Values model
(empty when the key is absent). -/
def valuesGet : List (String × List String) → String → List String
  | [], _ => []
  | (k, vs) :: rest, key => if k = key then vs else valuesGet rest key

/-- isUnescaped, from the mux source: reserved characters that should be
percent encoded, prohibited from pattern param names. -/
def isUnescaped (r : Char) : Bool :=
  match r with
  | '!' | '#' | '$' | '&' | '\'' | '(' | ')' | '*' | '+' | ',' | '/' | ':' | ';'
  | '=' | '?' | '@' | '[' | ']' => true
  | _ => false

/-- isParamRune, from the mux source: runes allowed in a pattern param name. -/
def isParamRune (r : Char) : Bool :=
  match r with
  | '%' | '-' | '.' | '<' | '>' | '\\' | '^' | '`' | '{' | '|' | '}' | '~' => false
  | _ => !isUnescaped r

/-- First rune of a rune slice, or the Go zero value rune when none remain. -/
def nextRune : List Char → Char
  | [] => Char.ofNat 0
  | c :: _ => c

/-- captureName, from the mux source: consumes the param name (a run of
param runes) from the pattern rest and reports the name, the remaining
pattern, and the next pattern rune (zero rune when the pattern ends). -/
def captureName (pattern : List Char) : String × List Char × Char :=
  (String.mk (pattern.takeWhile isParamRune),
   pattern.dropWhile isParamRune,
   nextRune (pattern.dropWhile isParamRune))

/-- captureValue, from the mux source: consumes path runes into the
captured value until the end mark rune or a slash, and reports the value
and the remaining path. -/
def captureValue (path : List Char) (endMark : Char) : String × List Char :=
  (String.mk (path.takeWhile fun c => c != endMark && c != '/'),
   path.dropWhile fun c => c != endMark && c != '/')

/-- The rune-traversal loop of pathMatch, with an explicit fuel argument so
that the definition is structurally recursive (each loop step consumes at
least one pattern rune, so fuel equal to the pattern length suffices; the
fuel-exhausted case is unreachable then).  Returns whether the pattern was
fully consumed, the literal rune count, the captured params, and the path
runes remaining beyond the consumed prefix. -/
def matchLoopF : Nat → List Char → List Char → Nat → List (String × List String) →
    Bool × Nat × List (String × List String) × List Char
  | _, [], path, runeCount, params => (true, runeCount, params, path)
  | 0, _ :: _, _, runeCount, _ => (false, runeCount, [], [])
  | Nat.succ fuel, p :: patRest, path, runeCount, params =>
    match path with
    | [] => (false, runeCount, [], [])
    | q :: pathTail =>
      if p = ':' then
        let name := (captureName patRest).1
        let rest := (captureName patRest).2.1
        let next := (captureName patRest).2.2
        let value := (captureValue (q :: pathTail) next).1
        let pathRest := (captureValue (q :: pathTail) next).2
        matchLoopF fuel rest pathRest runeCount
          (valuesAdd params (":" ++ name) value)
      else if p = q then
        matchLoopF fuel patRest pathTail (runeCount + 1) params
      else (false, runeCount, [], [])

/-- The pathMatch traversal loop at its canonical fuel. -/
def matchLoop (pattern path : List Char) (runeCount : Nat)
    (params : List (String × List String)) :
    Bool × Nat × List (String × List String) × List Char :=
  matchLoopF pattern.length pattern path runeCount params

/-- pathMatch, from the mux source: whether the path matches the pattern,
how many literal runes matched, and the captured params.  Exact equality
short-circuits; otherwise the rune loop runs, then tree patterns (ending
in a slash) accept any remaining path while leaf patterns require the
path to be fully consumed. -/
def pathMatch (pattern path : String) : Bool × Nat × List (String × List String) :=
  if pattern.length = 0 then (false, 0, [])
  else if pattern = path then (true, pattern.length, [])
  else
    match matchLoop pattern.data path.data 0 [] with
    | (ok, runeCount, params, pathRest) =>
      if ok = false then (false, runeCount, [])
      else if pattern.data.getLast? = some '/' then (true, runeCount, params)
      else if pathRest ≠ [] then (false, runeCount, [])
      else (true, runeCount, params)

/-- The ServeMux registry of the linear-scan mux: the pattern to routes
map (modelled as an insertion-ordered association list with unique keys,
standing for the Go map together with one fixed iteration order) and the
flag recording whether any pattern with a hostname was registered. -/
structure ServeMux where
  routes : List (String × List Route)
  anyHosts : Bool
deriving DecidableEq, Repr

/-- NewServeMux: the empty registry. -/
def NewServeMux : ServeMux :=
  { routes := [], anyHosts := false }

/-- Read of the routes map: the route slice stored under the pattern key
(empty when absent, like a Go map read of a missing key). -/
def mapGet : List (String × List Route) → String → List Route
  | [], _ => []
  | (k, rs) :: rest, key => if k = key then rs else mapGet rest key

/-- Write of the routes map as done by addRoute: append the route to the
slice stored under the key, creating the slot when absent. -/
def mapAppend : List (String × List Route) → String → Route → List (String × List Route)
  | [], key, route => [(key, [route])]
  | (k, rs) :: rest, key, route =>
    if k = key then (k, rs ++ [route]) :: rest
    else (k, rs) :: mapAppend rest key route

/-- hasImplicitRoute, from the mux source: whether some route stored under
the pattern key is implicit. -/
def hasImplicitRoute (mux : ServeMux) (pattern : String) : Bool :=
  (mapGet mux.routes pattern).any fun route => route.implicit

/-- Suffix of the pattern from its first slash, modelling the Go
expression pattern[strings.Index(pattern, "/"):] that strips a hostname
from the redirect target. -/
def stripToSlash (pattern : String) : String :=
  String.mk (pattern.data.dropWhile fun c => c != '/')

/-- Drop of the final rune, modelling pattern[:n-1] on a pattern whose
last byte is the one-byte rune slash. -/
def dropLastChar (pattern : String) : String :=
  String.mk pattern.data.dropLast

/-- addRoute of the linear-scan mux: panics (modelled as none) when the
route pattern is empty or the handler is nil; otherwise appends the route
under the pattern key, records hostname patterns in anyHosts, and for a
tree pattern with no implicit route under its leaf key synthesizes an
implicit permanent redirect route under the leaf key (the hostname, when
present, is stripped from the redirect target). -/
def addRoute (mux : ServeMux) (pattern : String) (route : Route) : Option ServeMux :=
  if route.pattern = "" then none
  else if route.handler = none then none
  else
    let routes1 := mapAppend mux.routes pattern route
    let anyHosts1 := mux.anyHosts || (pattern.length > 0 && pattern.data.head? != some '/')
    let mux1 : ServeMux := { routes := routes1, anyHosts := anyHosts1 }
    if pattern.length > 1 ∧ pattern.data.getLast? = some '/' ∧
        hasImplicitRoute mux1 (dropLastChar pattern) = false then
      let target := if pattern.data.head? != some '/' then stripToSlash pattern else pattern
      let redirect : Route :=
        { pattern := pattern, handler := some (GoHandler.redirectHandler target 301),
          implicit := true, rules := [] }
      some { mux1 with routes := mapAppend mux1.routes (dropLastChar pattern) redirect }
    else some mux1

/-- HandleRoute: registration entry point that builds the explicit route
with NewRoute and adds it with addRoute. -/
def HandleRoute (mux : ServeMux) (pattern : String) (handler : Option GoHandler)
    (rules : List Rule) : Option ServeMux :=
  addRoute mux pattern (NewRoute pattern handler rules)

/-- One registration call: the arguments of a HandleRoute invocation. -/
structure RegCall where
  pattern : String
  handler : Option GoHandler
  rules : List Rule
deriving DecidableEq, Repr

/-- Replay of a sequence of registration calls against the empty registry;
a call that panics leaves the registry unchanged. -/
def foldRegisters (calls : List RegCall) : ServeMux :=
  calls.foldl (fun m c => (HandleRoute m c.pattern c.handler c.rules).getD m) NewServeMux

/-- One candidate of the match scan: a route stored under a pattern key
that the path matched, with the literal rune count and captured params of
that pattern. -/
structure Candidate where
  runeCount : Nat
  route : Route
  params : List (String × List String)
deriving DecidableEq, Repr

/-- The mutable state of the match scan: best handler so far (nil before
the first candidate), its literal rune count, report pattern and params. -/
structure MatchState where
  handler : Option GoHandler
  n : Nat
  pattern : String
  params : List (String × List String)
deriving DecidableEq, Repr

/-- One step of the match scan over a candidate, from the mux source:
take the candidate when no handler is chosen yet or it has a strictly
larger rune count; then, on a tie with the (possibly updated) best count,
an explicit candidate replaces the current choice. -/
def matchStep (st : MatchState) (c : Candidate) : MatchState :=
  let st1 := if st.handler = none ∨ c.runeCount > st.n then
      { handler := c.route.handler, n := c.runeCount,
        pattern := c.route.pattern, params := c.params }
    else st
  if c.runeCount = st1.n ∧ c.route.implicit = false then
    { st1 with
      handler := c.route.handler
      pattern := c.route.pattern
      params := c.params }
  else st1

/-- The candidates the match scan iterates over: for every pattern key the
path matches, every route stored under it that the rules allow, in registry
order, tagged with the rune count and params of the pattern. -/
def muxCandidates (mux : ServeMux) (request : Request) (path : String) : List Candidate :=
  mux.routes.flatMap fun entry =>
    match pathMatch entry.1 path with
    | (isMatch, runeCount, parameters) =>
      if isMatch then
        (entry.2.filter fun route => route.allows request).map fun route =>
          { runeCount := runeCount, route := route, params := parameters }
      else []

/-- ServeMux.match, from the mux source: scan all candidates and return
the chosen handler (none when no candidate survived), report pattern and
params. -/
def muxMatch (mux : ServeMux) (request : Request) (path : String) :
    Option GoHandler × String × List (String × List String) :=
  let final := (muxCandidates mux request path).foldl matchStep
    { handler := none, n := 0, pattern := "", params := [] }
  (final.handler, final.pattern, final.params)

/-- ServeMux.handler, from the mux source: when the registry is host
aware, first match against host plus path; when that found no handler,
match against the path alone; when nothing matched, the NotFoundHandler
with an empty pattern. -/
def muxHandler (mux : ServeMux) (request : Request) (path : String) : GoHandler × String :=
  let hostResult := if mux.anyHosts then muxMatch mux request (request.host ++ path)
    else (none, "", [])
  let result := if hostResult.1 = none then muxMatch mux request path else hostResult
  match result.1 with
  | some h => (h, result.2.1)
  | none => (GoHandler.notFoundHandler, "")

/-- The registry of the trie-based mux of warp.go, modelled at the key to
route mapping level (trie Put stores one route per exact key, replacing). -/
structure ServeMuxStrict where
  routes : List (String × Route)
  anyHosts : Bool
deriving DecidableEq, Repr

/-- Put of the trie of warp.go: store the route under the exact key,
replacing any previous route there. -/
def triePut : List (String × Route) → String → Route → List (String × Route)
  | [], key, route => [(key, route)]
  | (k, r) :: rest, key, route =>
    if k = key then (key, route) :: rest
    else (k, r) :: triePut rest key route

/-- addRoute of warp.go, the stricter registration variant: panics
(modelled as none) when the pattern is empty, when the pattern does not
begin with a slash, or when the handler is nil; otherwise stores the route
and, for a tree pattern, puts an implicit permanent redirect under the
leaf key. -/
def addRouteStrict (mux : ServeMuxStrict) (pattern : String) (route : Route) :
    Option ServeMuxStrict :=
  if pattern = "" then none
  else if pattern.data.head? != some '/' then none
  else if route.handler = none then none
  else
    let routes1 := triePut mux.routes pattern route
    let anyHosts1 := mux.anyHosts || (pattern.length > 0 && pattern.data.head? != some '/')
    let mux1 : ServeMuxStrict := { routes := routes1, anyHosts := anyHosts1 }
    if pattern.length > 1 ∧ pattern.data.getLast? = some '/' then
      let redirect : Route :=
        { pattern := pattern, handler := some (GoHandler.redirectHandler pattern 301),
          implicit := true, rules := [] }
      some { mux1 with routes := triePut mux1.routes (dropLastChar pattern) redirect }
    else some mux1


/-- Invariant of the match scan: either no candidate was processed and
the state is the initial one, or the state records one processed
candidate whose rune count is maximal among the processed ones, and when
that recorded candidate is implicit no processed explicit candidate ties
with it. -/
def matchScanInv (processed : List Candidate) (st : MatchState) : Prop :=
  (st.handler = none ∧ processed = [] ∧
    st = { handler := none, n := 0, pattern := "", params := [] }) ∨
  (st.handler ≠ none ∧ ∃ c ∈ processed,
    st.handler = c.route.handler ∧ st.n = c.runeCount ∧
    st.pattern = c.route.pattern ∧ st.params = c.params ∧
    (∀ c2 ∈ processed, c2.runeCount ≤ st.n) ∧
    (c.route.implicit = true → ∀ c2 ∈ processed,
      c2.runeCount = st.n → c2.route.implicit = true))

lemma string_eq_of_data_eq {s t : String} (h : s.data = t.data) : s = t := by
  cases s
  cases t
  exact congrArg String.mk h

lemma string_eq_empty_of_length_zero {s : String} (h : s.length = 0) : s = "" := by
  cases s with
  | mk d =>
    cases d with
    | nil => rfl
    | cons c cs => simp [String.length] at h

lemma contains_iff_mem (l : List String) (v : String) : contains l v = true ↔ v ∈ l := by
  induction l with
  | nil => simp [contains]
  | cons a rest ih =>
    by_cases h : a = v
    · subst h
      simp [contains]
    · simp [contains, h, ih, Ne.symm h]

lemma valuesGet_valuesAdd_self (params : List (String × List String)) (key value : String) :
    valuesGet (valuesAdd params key value) key = valuesGet params key ++ [value] := by
  induction params with
  | nil => simp [valuesAdd, valuesGet]
  | cons p rest ih =>
    obtain ⟨k, vs⟩ := p
    by_cases h : k = key
    · subst h
      simp [valuesAdd, valuesGet]
    · simp [valuesAdd, valuesGet, h, ih]

lemma valuesGet_valuesAdd_ne (params : List (String × List String)) (key value other : String)
    (h : other ≠ key) :
    valuesGet (valuesAdd params key value) other = valuesGet params other := by
  induction params with
  | nil => simp [valuesAdd, valuesGet, Ne.symm h]
  | cons p rest ih =>
    obtain ⟨k, vs⟩ := p
    by_cases hk : k = key
    · subst hk
      simp [valuesAdd, valuesGet, Ne.symm h]
    · simp only [valuesAdd, if_neg hk]
      by_cases h2 : k = other
      · simp [valuesGet, h2]
      · simp [valuesGet, h2, ih]

lemma mapGet_mapAppend (m : List (String × List Route)) (key : String) (route : Route)
    (k2 : String) :
    mapGet (mapAppend m key route) k2 =
      if k2 = key then mapGet m k2 ++ [route] else mapGet m k2 := by
  induction m with
  | nil =>
    by_cases h : k2 = key
    · subst h
      simp [mapAppend, mapGet]
    · simp [mapAppend, mapGet, h, Ne.symm h]
  | cons p rest ih =>
    obtain ⟨k, rs⟩ := p
    by_cases hk : k = key
    · subst hk
      by_cases h2 : k2 = k
      · subst h2
        simp [mapAppend, mapGet]
      · simp [mapAppend, mapGet, h2, Ne.symm h2]
    · simp only [mapAppend, if_neg hk]
      by_cases h2 : k = k2
      · subst h2
        simp [mapGet, hk, Ne.symm hk]
      · simp [mapGet, h2, ih]

/-- C5: for every nonempty pattern P matched against a path equal to P,
pathMatch short-circuits to a match whose literal match count is the
number of Unicode code points of P (String.length counts code points)
with no captured parameters, even when P contains capture markers. -/
theorem exact_equality_short_circuit (P : String) (h : P ≠ "") :
    pathMatch P P = (true, P.length, []) := by
  have hlen : ¬ P.length = 0 := fun h0 => h (string_eq_empty_of_length_zero h0)
  simp [pathMatch, hlen]

/-- Witness for C5 at a concrete pattern containing a capture marker. -/
theorem exact_equality_short_circuit_witness :
    ("/foo/:name" : String) ≠ "" ∧
      pathMatch "/foo/:name" "/foo/:name" = (true, ("/foo/:name" : String).length, []) :=
  ⟨by decide, exact_equality_short_circuit "/foo/:name" (by decide)⟩

/-- C9 counterexample: the claim states that a method rule whose set
contains the pseudo-method ANY allows requests of every method, but the
rule built from ANY rejects a GET request, because methodRule.Allows is
plain membership and gives ANY no special treatment. -/
theorem methodRule_any_counterexample :
    (NewMethodRule ["ANY"]).allows { method := "GET", host := "" } = false := by
  decide

/-- C9 as amended: NewMethodRule upper-cases every method name at
construction and the rule allows a request iff the method is literally a
member of the stored set; in particular a rule built from ANY allows
exactly the requests whose method is the literal string ANY. -/
theorem methodRule_allows_iff_member :
    (∀ (methods : List String) (request : Request),
      (NewMethodRule methods).allows request = true ↔
        request.method ∈ methods.map goToUpper) ∧
    (∀ request : Request,
      (NewMethodRule ["ANY"]).allows request = true ↔ request.method = "ANY") := by
  have base : ∀ (methods : List String) (request : Request),
      (NewMethodRule methods).allows request = true ↔
        request.method ∈ methods.map goToUpper := by
    intro methods request
    simp [NewMethodRule, Rule.allows, contains_iff_mem]
  refine ⟨base, fun request => ?_⟩
  rw [base ["ANY"] request]
  have hmap : (["ANY"] : List String).map goToUpper = ["ANY"] := by decide
  rw [hmap]
  simp

/-- Witness for C9: upper-casing at construction makes a lower-case
registration match an upper-case request method. -/
theorem methodRule_allows_iff_member_witness :
    (NewMethodRule ["get"]).allows { method := "GET", host := "" } = true :=
  (methodRule_allows_iff_member.1 ["get"] { method := "GET", host := "" }).mpr (by decide)

/-- C8 counterexample: the claim states that a pattern consisting of a
hostname followed by a slash is accepted, but the stricter registration
variant panics on every pattern that does not begin with a slash,
hostname-qualified patterns included. -/
theorem strict_variant_rejects_hostname_pattern :
    addRouteStrict { routes := [], anyHosts := false } "domain.com/"
      (NewRoute "domain.com/" (some (GoHandler.user 1)) []) = none := by
  decide

/-- C8 as amended: registration panics exactly when the pattern is empty
or the handler is nil, and the stricter variant additionally panics
exactly when the pattern does not begin with a slash (so a hostname
followed by a slash is accepted only by the lenient variant). -/
theorem registration_panic_conditions :
    (∀ (mux : ServeMux) (pattern : String) (handler : Option GoHandler) (rules : List Rule),
      HandleRoute mux pattern handler rules = none ↔ pattern = "" ∨ handler = none) ∧
    (∀ (mux : ServeMuxStrict) (pattern : String) (route : Route),
      addRouteStrict mux pattern route = none ↔
        pattern = "" ∨ pattern.data.head? ≠ some '/' ∨ route.handler = none) := by
  constructor
  · intro mux pattern handler rules
    by_cases h1 : pattern = "" <;> by_cases h2 : handler = none <;>
      simp [HandleRoute, addRoute, NewRoute, h1, h2] <;> split <;> simp
  · intro mux pattern route
    by_cases h1 : pattern = "" <;> by_cases h2 : pattern.data.head? = some '/' <;>
      by_cases h3 : route.handler = none <;>
      simp [addRouteStrict, h1, h2, h3] <;> split <;> simp

/-- Witness for C8: the empty pattern is rejected by the lenient variant. -/
theorem registration_panic_conditions_witness :
    HandleRoute NewServeMux "" (some (GoHandler.user 1)) [] = none :=
  (registration_panic_conditions.1 NewServeMux "" (some (GoHandler.user 1)) []).mpr
    (Or.inl rfl)

/-- C6: values captured under one parameter name accumulate, appended in
left-to-right capture order, instead of overwriting; in particular the
pattern with two identical capture names yields both values in order. -/
theorem repeated_capture_names_accumulate :
    (∀ (params : List (String × List String)) (key value : String),
      valuesGet (valuesAdd params key value) key = valuesGet params key ++ [value]) ∧
    (∀ (params : List (String × List String)) (key value other : String), other ≠ key →
      valuesGet (valuesAdd params key value) other = valuesGet params other) ∧
    pathMatch "/foo/:name/bar/:name" "/foo/ben/bar/tim" =
      (true, 10, [(":name", ["ben", "tim"])]) ∧
    valuesGet (pathMatch "/foo/:name/bar/:name" "/foo/ben/bar/tim").2.2 ":name" =
      ["ben", "tim"] :=
  ⟨valuesGet_valuesAdd_self, valuesGet_valuesAdd_ne, by decide, by decide⟩

/-- Witness for C6: appending a second value under an existing name keeps
the first value and preserves order. -/
theorem repeated_capture_names_accumulate_witness :
    valuesGet (valuesAdd [(":name", ["ben"])] ":name" "tim") ":name" = ["ben", "tim"] :=
  (repeated_capture_names_accumulate.1 [(":name", ["ben"])] ":name" "tim").trans (by decide)

lemma string_length_data (s : String) : s.length = s.data.length := rfl

lemma dropLastChar_ne {p : String} (h : 0 < p.length) : dropLastChar p ≠ p := by
  intro he
  have hlen : (dropLastChar p).length = p.length := by rw [he]
  rw [string_length_data, string_length_data] at hlen
  rw [string_length_data] at h
  simp only [dropLastChar, List.length_dropLast] at hlen
  omega

lemma foldl_reg_preserve (P : ServeMux → Prop)
    (hstep : ∀ (m : ServeMux) (c : RegCall),
      P m → P ((HandleRoute m c.pattern c.handler c.rules).getD m))
    (calls : List RegCall) (m : ServeMux) (hm : P m) :
    P (calls.foldl
      (fun (m : ServeMux) (c : RegCall) =>
        (HandleRoute m c.pattern c.handler c.rules).getD m) m) := by
  induction calls generalizing m with
  | nil => exact hm
  | cons c rest ih => exact ih _ (hstep m c hm)

lemma newRoute_implicit (p : String) (h : Option GoHandler) (rs : List Rule) :
    (NewRoute p h rs).implicit = false := rfl

lemma handleRoute_routes (m : ServeMux) (p : String) (h : Option GoHandler)
    (rs : List Rule) :
    ((HandleRoute m p h rs).getD m).routes = m.routes ∨
    ((HandleRoute m p h rs).getD m).routes = mapAppend m.routes p (NewRoute p h rs) ∨
    ∃ target,
      ((HandleRoute m p h rs).getD m).routes =
        mapAppend (mapAppend m.routes p (NewRoute p h rs)) (dropLastChar p)
          { pattern := p, handler := some (GoHandler.redirectHandler target 301),
            implicit := true, rules := [] } ∧
      0 < p.length ∧
      ((mapGet (mapAppend m.routes p (NewRoute p h rs)) (dropLastChar p)).any
        fun r => r.implicit) = false := by
  simp only [HandleRoute, addRoute]
  split_ifs with h1 h2 h3 h4
  · exact Or.inl rfl
  · exact Or.inl rfl
  · refine Or.inr (Or.inr ⟨stripToSlash p, rfl, by omega, ?_⟩)
    simpa [hasImplicitRoute] using h3.2.2
  · refine Or.inr (Or.inr ⟨p, rfl, by omega, ?_⟩)
    simpa [hasImplicitRoute] using h3.2.2
  · exact Or.inr (Or.inl rfl)

lemma regStep_implicit_count (m : ServeMux) (c : RegCall)
    (H : ∀ k, ((mapGet m.routes k).filter fun r => r.implicit).length ≤ 1) :
    ∀ k, ((mapGet ((HandleRoute m c.pattern c.handler c.rules).getD m).routes k).filter
      fun r => r.implicit).length ≤ 1 := by
  intro k
  rcases handleRoute_routes m c.pattern c.handler c.rules with hR | hR | ⟨target, hR, hpos, hNoImp⟩
  · rw [hR]
    exact H k
  · rw [hR, mapGet_mapAppend]
    by_cases hk : k = c.pattern
    · rw [if_pos hk, List.filter_append]
      simpa [NewRoute] using H k
    · rw [if_neg hk]
      exact H k
  · have hne : dropLastChar c.pattern ≠ c.pattern := dropLastChar_ne hpos
    rw [hR, mapGet_mapAppend]
    by_cases hk1 : k = dropLastChar c.pattern
    · subst hk1
      rw [if_pos rfl, mapGet_mapAppend, if_neg hne]
      rw [mapGet_mapAppend, if_neg hne] at hNoImp
      have hfilter : ((mapGet m.routes (dropLastChar c.pattern)).filter
          fun r => r.implicit) = [] := by
        rw [List.filter_eq_nil_iff]
        intro r hr
        simpa using List.any_eq_false.mp hNoImp r hr
      rw [List.filter_append, hfilter]
      simp
    · rw [if_neg hk1, mapGet_mapAppend]
      by_cases hk2 : k = c.pattern
      · rw [if_pos hk2, List.filter_append]
        simpa [NewRoute] using H k
      · rw [if_neg hk2]
        exact H k

/-- C7: after every sequence of registration calls, at most one implicit
route is stored under any key, and registering the same tree pattern
twice leaves exactly one implicit redirect route under its leaf key. -/
theorem implicit_route_unique :
    (∀ (calls : List RegCall) (k : String),
      ((mapGet (foldRegisters calls).routes k).filter fun r => r.implicit).length ≤ 1) ∧
    ((mapGet (foldRegisters [⟨"/tree/", some (GoHandler.user 1), []⟩,
        ⟨"/tree/", some (GoHandler.user 1), []⟩]).routes "/tree").filter
      fun r => r.implicit).length = 1 := by
  constructor
  · intro calls k
    have base : ∀ k, ((mapGet NewServeMux.routes k).filter fun r => r.implicit).length ≤ 1 := by
      intro k
      simp [NewServeMux, mapGet]
    exact foldl_reg_preserve
      (fun m => ∀ k, ((mapGet m.routes k).filter fun r => r.implicit).length ≤ 1)
      regStep_implicit_count calls NewServeMux base k
  · decide

/-- Witness for C7 at a concrete registration sequence. -/
theorem implicit_route_unique_witness :
    ((mapGet (foldRegisters [⟨"/a/", some (GoHandler.user 1), []⟩,
        ⟨"/a/", some (GoHandler.user 2), []⟩, ⟨"/a/", some (GoHandler.user 3), []⟩]).routes
      "/a").filter fun r => r.implicit).length ≤ 1 :=
  implicit_route_unique.1
    [⟨"/a/", some (GoHandler.user 1), []⟩, ⟨"/a/", some (GoHandler.user 2), []⟩,
      ⟨"/a/", some (GoHandler.user 3), []⟩] "/a"

lemma regStep_implicit_shape (m : ServeMux) (c : RegCall)
    (H : ∀ k r, r ∈ mapGet m.routes k → r.implicit = true →
      r.rules = [] ∧ ∃ target, r.handler = some (GoHandler.redirectHandler target 301)) :
    ∀ k r, r ∈ mapGet ((HandleRoute m c.pattern c.handler c.rules).getD m).routes k →
      r.implicit = true →
      r.rules = [] ∧ ∃ target, r.handler = some (GoHandler.redirectHandler target 301) := by
  intro k r hr himp
  rcases handleRoute_routes m c.pattern c.handler c.rules with hR | hR | ⟨target, hR, hpos, hNoImp⟩
  · rw [hR] at hr
    exact H k r hr himp
  · rw [hR, mapGet_mapAppend] at hr
    split_ifs at hr with hk
    · rcases List.mem_append.mp hr with hr2 | hr2
      · exact H k r hr2 himp
      · rw [List.mem_singleton] at hr2
        subst hr2
        simp [NewRoute] at himp
    · exact H k r hr himp
  · rw [hR, mapGet_mapAppend] at hr
    split_ifs at hr with hk1
    · rcases List.mem_append.mp hr with hr2 | hr2
      · rw [mapGet_mapAppend] at hr2
        split_ifs at hr2 with hk2
        · rcases List.mem_append.mp hr2 with hr3 | hr3
          · exact H k r hr3 himp
          · rw [List.mem_singleton] at hr3
            subst hr3
            simp [NewRoute] at himp
        · exact H k r hr2 himp
      · rw [List.mem_singleton] at hr2
        subst hr2
        exact ⟨rfl, target, rfl⟩
    · rw [mapGet_mapAppend] at hr
      split_ifs at hr with hk2
      · rcases List.mem_append.mp hr with hr3 | hr3
        · exact H k r hr3 himp
        · rw [List.mem_singleton] at hr3
          subst hr3
          simp [NewRoute] at himp
      · exact H k r hr himp

/-- C10: every implicit route present after any sequence of registration
calls carries an empty rule list, therefore allows requests of every
method, and its handler is a permanent (301) redirect. -/
theorem implicit_routes_admit_all_methods :
    ∀ (calls : List RegCall) (k : String) (r : Route),
      r ∈ mapGet (foldRegisters calls).routes k → r.implicit = true →
        r.rules = [] ∧ (∀ request : Request, r.allows request = true) ∧
        ∃ target, r.handler = some (GoHandler.redirectHandler target 301) := by
  intro calls k r hr himp
  have base : ∀ k r, r ∈ mapGet NewServeMux.routes k → r.implicit = true →
      r.rules = [] ∧ ∃ target, r.handler = some (GoHandler.redirectHandler target 301) := by
    intro k r hr
    simp [NewServeMux, mapGet] at hr
  have hmain := foldl_reg_preserve
    (fun m => ∀ k r, r ∈ mapGet m.routes k → r.implicit = true →
      r.rules = [] ∧ ∃ target, r.handler = some (GoHandler.redirectHandler target 301))
    regStep_implicit_shape calls NewServeMux base k r hr himp
  obtain ⟨hrules, htarget⟩ := hmain
  refine ⟨hrules, ?_, htarget⟩
  intro request
  simp [Route.allows, hrules]

/-- Witness for C10: the implicit redirect synthesized for a GET-only
tree pattern still allows a POST request. -/
theorem implicit_routes_admit_all_methods_witness :
    ({ pattern := "/tree/", handler := some (GoHandler.redirectHandler "/tree/" 301),
        implicit := true, rules := [] } : Route) ∈
      mapGet (foldRegisters [⟨"/tree/", some (GoHandler.user 1),
        [NewMethodRule ["GET"]]⟩]).routes "/tree" ∧
    ({ pattern := "/tree/", handler := some (GoHandler.redirectHandler "/tree/" 301),
        implicit := true, rules := [] } : Route).allows { method := "POST", host := "" } =
      true :=
  ⟨by decide,
    (implicit_routes_admit_all_methods [⟨"/tree/", some (GoHandler.user 1),
      [NewMethodRule ["GET"]]⟩] "/tree" _ (by decide) rfl).2.1 { method := "POST", host := "" }⟩

/-- C2: when the registry is host aware and matching against host plus
path yields a handler, resolution returns exactly that host-specific
result and generic matching is skipped; registering a hostname-qualified
pattern makes the registry host aware; and with domain.com/foo and /foo
both registered, a request with host domain.com and path /foo resolves to
domain.com/foo. -/
theorem host_specific_match_wins :
    (∀ (mux : ServeMux) (request : Request) (path : String) (h : GoHandler)
        (pat : String) (prm : List (String × List String)),
      mux.anyHosts = true →
      muxMatch mux request (request.host ++ path) = (some h, pat, prm) →
      muxHandler mux request path = (h, pat)) ∧
    (∀ (mux : ServeMux) (pattern : String) (route : Route) (mux2 : ServeMux),
      addRoute mux pattern route = some mux2 → pattern ≠ "" →
      pattern.data.head? ≠ some '/' → mux2.anyHosts = true) ∧
    muxHandler (foldRegisters [⟨"domain.com/foo", some (GoHandler.user 1), []⟩,
      ⟨"/foo", some (GoHandler.user 2), []⟩]) { method := "GET", host := "domain.com" }
      "/foo" = (GoHandler.user 1, "domain.com/foo") := by
  refine ⟨?_, ?_, by decide⟩
  · intro mux request path h pat prm hHost hMatch
    simp [muxHandler, hHost, hMatch]
  · intro mux pattern route mux2 hAdd hne hhead
    have hlen : 0 < pattern.length := by
      cases pattern with
      | mk d =>
        cases d with
        | nil => exact absurd rfl hne
        | cons a as => simp [String.length]
    have hbne : (pattern.data.head? != some '/') = true := by
      simpa using hhead
    simp only [addRoute] at hAdd
    split_ifs at hAdd with h1 h2 h3
    · rw [Option.some.injEq] at hAdd
      subst hAdd
      simp [hlen, hbne]
    · rw [Option.some.injEq] at hAdd
      subst hAdd
      simp [hlen, hbne]

/-- Witness for C2 at the concrete host-aware registry. -/
theorem host_specific_match_wins_witness :
    (foldRegisters [⟨"domain.com/foo", some (GoHandler.user 1), []⟩,
      ⟨"/foo", some (GoHandler.user 2), []⟩]).anyHosts = true ∧
    muxHandler (foldRegisters [⟨"domain.com/foo", some (GoHandler.user 1), []⟩,
      ⟨"/foo", some (GoHandler.user 2), []⟩]) { method := "GET", host := "domain.com" }
      "/foo" = (GoHandler.user 1, "domain.com/foo") :=
  ⟨by decide,
    host_specific_match_wins.1
      (foldRegisters [⟨"domain.com/foo", some (GoHandler.user 1), []⟩,
        ⟨"/foo", some (GoHandler.user 2), []⟩])
      { method := "GET", host := "domain.com" } "/foo" (GoHandler.user 1)
      "domain.com/foo" [] (by decide) (by decide)⟩

lemma captureValue_split (path : List Char) (endMark : Char) :
    (captureValue path endMark).1.data ++ (captureValue path endMark).2 = path := by
  simpa [captureValue] using
    List.takeWhile_append_dropWhile (fun c => c != endMark && c != '/') path

lemma captureValue_mem (path : List Char) (endMark : Char) :
    ∀ c ∈ (captureValue path endMark).1.data, c ≠ endMark ∧ c ≠ '/' := by
  intro c hc
  simp only [captureValue] at hc
  have := List.mem_takeWhile_imp hc
  simpa using this

lemma captureValue_boundary (path : List Char) (endMark : Char) :
    ∀ (c : Char) (rest : List Char),
      (captureValue path endMark).2 = c :: rest → c = endMark ∨ c = '/' := by
  induction path with
  | nil =>
    intro c rest h
    simp [captureValue] at h
  | cons a l ih =>
    intro c rest h
    by_cases hp : (a != endMark && a != '/') = true
    · simp only [captureValue, List.dropWhile_cons, hp, if_true] at h
      exact ih c rest (by simpa [captureValue] using h)
    · simp only [captureValue, List.dropWhile_cons, hp, if_false] at h
      obtain ⟨rfl, rfl⟩ := List.cons.injEq a l c rest ▸ h
      rcases Bool.and_eq_false_iff.mp (Bool.not_eq_true _ ▸ hp) with h1 | h1
      · exact Or.inl (by simpa using h1)
      · exact Or.inr (by simpa using h1)

lemma valuesAdd_no_slash {params : List (String × List String)} {key value : String}
    (hp : ∀ p ∈ params, ∀ v ∈ p.2, '/' ∉ v.data) (hv : '/' ∉ value.data) :
    ∀ p ∈ valuesAdd params key value, ∀ v ∈ p.2, '/' ∉ v.data := by
  induction params with
  | nil =>
    intro p hpmem v hvmem
    simp [valuesAdd] at hpmem
    subst hpmem
    simp at hvmem
    subst hvmem
    exact hv
  | cons q rest ih =>
    obtain ⟨k, vs⟩ := q
    intro p hpmem v hvmem
    by_cases hk : k = key
    · simp only [valuesAdd, if_pos hk, List.mem_cons] at hpmem
      rcases hpmem with rfl | hpmem
      · rcases List.mem_append.mp hvmem with hvs | hvs
        · exact hp (k, vs) (List.mem_cons_self _ _) v hvs
        · rw [List.mem_singleton] at hvs
          subst hvs
          exact hv
      · exact hp p (List.mem_cons_of_mem _ hpmem) v hvmem
    · simp only [valuesAdd, if_neg hk, List.mem_cons] at hpmem
      rcases hpmem with rfl | hpmem
      · exact hp (k, vs) (List.mem_cons_self _ _) v hvmem
      · exact ih (fun p2 h2 => hp p2 (List.mem_cons_of_mem _ h2)) p hpmem v hvmem

lemma matchLoopF_no_slash (fuel : Nat) :
    ∀ (pat path : List Char) (rc : Nat) (prm : List (String × List String))
      (ok : Bool) (n : Nat) (prm2 : List (String × List String)) (rest : List Char),
      (∀ p ∈ prm, ∀ v ∈ p.2, '/' ∉ v.data) →
      matchLoopF fuel pat path rc prm = (ok, n, prm2, rest) →
      ∀ p ∈ prm2, ∀ v ∈ p.2, '/' ∉ v.data := by
  induction fuel with
  | zero =>
    intro pat path rc prm ok n prm2 rest hp hEq
    cases pat with
    | nil =>
      simp only [matchLoopF, Prod.mk.injEq] at hEq
      obtain ⟨-, -, h3, -⟩ := hEq
      subst h3
      exact hp
    | cons p pr =>
      simp only [matchLoopF, Prod.mk.injEq] at hEq
      obtain ⟨-, -, h3, -⟩ := hEq
      subst h3
      simp
  | succ f ih =>
    intro pat path rc prm ok n prm2 rest hp hEq
    cases pat with
    | nil =>
      simp only [matchLoopF, Prod.mk.injEq] at hEq
      obtain ⟨-, -, h3, -⟩ := hEq
      subst h3
      exact hp
    | cons p pr =>
      cases path with
      | nil =>
        simp only [matchLoopF, Prod.mk.injEq] at hEq
        obtain ⟨-, -, h3, -⟩ := hEq
        subst h3
        simp
      | cons q qt =>
        simp only [matchLoopF] at hEq
        split_ifs at hEq with hcolon hlit
        · have hv : '/' ∉ ((captureValue (q :: qt) ((captureName pr).2.2)).1).data := by
            intro hmem
            exact (captureValue_mem (q :: qt) ((captureName pr).2.2) '/' hmem).2 rfl
          exact ih _ _ _ _ _ _ _ _ (valuesAdd_no_slash hp hv) hEq
        · exact ih _ _ _ _ _ _ _ _ hp hEq
        · simp only [Prod.mk.injEq] at hEq
          obtain ⟨-, -, h3, -⟩ := hEq
          subst h3
          simp

/-- C4 counterexample: at pattern /:a the capture name ends the pattern,
so the claim places the end of the captured run at the first slash of the
path only; the matcher also ends the capture at the Go zero value rune
(NUL), so the path with an embedded NUL code point fails to match even
though the claim predicts a successful match capturing the whole run. -/
theorem capture_nul_counterexample :
    pathMatch "/:a" "/xy" = (true, 1, [(":a", ["xy"])]) ∧
    pathMatch "/:a" (String.mk ['/', 'x', Char.ofNat 0, 'y']) = (false, 1, []) :=
  ⟨by decide, by decide⟩

/-- C4 as amended: a captured value is the run of path code points ending
at the first slash or at the pattern code point immediately following the
name (the NUL code point standing in when the name ends the pattern),
whichever comes first; consequently no captured value ever contains a
slash, an empty captured value is legal, and /foo/:name matches /foo/tim
capturing tim but does not match /foo/tim/. -/
theorem capture_semantics :
    (∀ (path : List Char) (endMark : Char),
      (captureValue path endMark).1.data ++ (captureValue path endMark).2 = path ∧
      (∀ c ∈ (captureValue path endMark).1.data, c ≠ endMark ∧ c ≠ '/') ∧
      (∀ (c : Char) (rest : List Char),
        (captureValue path endMark).2 = c :: rest → c = endMark ∨ c = '/')) ∧
    (∀ (pattern path : String) (ok : Bool) (n : Nat)
        (prm : List (String × List String)),
      pathMatch pattern path = (ok, n, prm) →
      ∀ p ∈ prm, ∀ v ∈ p.2, '/' ∉ v.data) ∧
    pathMatch "/a/:x/b" "/a//b" = (true, 5, [(":x", [""])]) ∧
    pathMatch "/foo/:name" "/foo/tim" = (true, 5, [(":name", ["tim"])]) ∧
    (pathMatch "/foo/:name" "/foo/tim/").1 = false := by
  refine ⟨?_, ?_, by decide, by decide, by decide⟩
  · intro path endMark
    exact ⟨captureValue_split path endMark, captureValue_mem path endMark,
      captureValue_boundary path endMark⟩
  · intro pattern path ok n prm hEq
    rcases hML : matchLoop pattern.data path.data 0 [] with ⟨ok2, n2, prm3, rest2⟩
    have hinv := matchLoopF_no_slash pattern.data.length pattern.data path.data 0 []
      ok2 n2 prm3 rest2 (by simp) hML
    simp only [pathMatch, hML] at hEq
    split_ifs at hEq <;>
      · simp only [Prod.mk.injEq] at hEq
        obtain ⟨-, -, hprm⟩ := hEq
        subst hprm
        first
          | exact hinv
          | simp

/-- Witness for C4: the captured value and the remaining path recompose
the original path at a concrete capture site. -/
theorem capture_semantics_witness :
    (captureValue ['b', 'e', 'n', '/', 'x'] (Char.ofNat 0)).1.data ++
      (captureValue ['b', 'e', 'n', '/', 'x'] (Char.ofNat 0)).2 =
        ['b', 'e', 'n', '/', 'x'] :=
  (capture_semantics.1 ['b', 'e', 'n', '/', 'x'] (Char.ofNat 0)).1

lemma mem_of_getLast?_eq {l : List Char} {a : Char} (h : l.getLast? = some a) : a ∈ l := by
  have hx : a ∈ l.getLast? := Option.mem_def.mpr h
  obtain ⟨hne, heq⟩ := List.mem_getLast?_eq_getLast hx
  rw [heq]
  exact List.getLast_mem hne

lemma getLast?_cons_of_ne_nil {a : Char} {l : List Char} (h : l ≠ []) :
    (a :: l).getLast? = l.getLast? := by
  cases l with
  | nil => exact absurd rfl h
  | cons b bs => simp [List.getLast?_cons_cons]

lemma takeWhile_append_left (p : Char → Bool) (l t : List Char) (h : l.dropWhile p ≠ []) :
    (l ++ t).takeWhile p = l.takeWhile p := by
  induction l with
  | nil => exact absurd rfl h
  | cons a l2 ih =>
    by_cases hp : p a = true
    · simp only [List.dropWhile_cons, hp, if_true] at h
      simp [List.takeWhile_cons, hp, ih h]
    · simp [List.takeWhile_cons, hp]

lemma dropWhile_append_left (p : Char → Bool) (l t : List Char) (h : l.dropWhile p ≠ []) :
    (l ++ t).dropWhile p = l.dropWhile p ++ t := by
  induction l with
  | nil => exact absurd rfl h
  | cons a l2 ih =>
    by_cases hp : p a = true
    · simp only [List.dropWhile_cons, hp, if_true] at h
      simp [List.dropWhile_cons, hp, ih h]
    · simp [List.dropWhile_cons, hp]

lemma dropWhile_getLast?_of_ne_nil (p : Char → Bool) (l : List Char)
    (h : l.dropWhile p ≠ []) : (l.dropWhile p).getLast? = l.getLast? := by
  conv_rhs => rw [← List.takeWhile_append_dropWhile p l]
  exact (List.getLast?_append_of_ne_nil _ h).symm

lemma matchLoopF_nil_path (fuel : Nat) (c : Char) (cs : List Char) (rc : Nat)
    (prm : List (String × List String)) :
    (matchLoopF fuel (c :: cs) [] rc prm).1 = false := by
  cases fuel <;> simp [matchLoopF]

lemma matchLoopF_extend (fuel : Nat) :
    ∀ (pat pre cont : List Char) (rc : Nat) (prm : List (String × List String))
      (n : Nat) (prm2 : List (String × List String)),
      pat.length ≤ fuel → pat.getLast? = some '/' →
      matchLoopF fuel pat pre rc prm = (true, n, prm2, []) →
      matchLoopF fuel pat (pre ++ cont) rc prm = (true, n, prm2, cont) := by
  induction fuel with
  | zero =>
    intro pat pre cont rc prm n prm2 hlen hlast hEq
    cases pat with
    | nil =>
      simp only [matchLoopF, Prod.mk.injEq] at hEq
      obtain ⟨-, h2, h3, h4⟩ := hEq
      subst h2
      subst h3
      subst h4
      simp [matchLoopF]
    | cons p pr => simp at hlen
  | succ f ih =>
    intro pat pre cont rc prm n prm2 hlen hlast hEq
    cases pat with
    | nil =>
      simp only [matchLoopF, Prod.mk.injEq] at hEq
      obtain ⟨-, h2, h3, h4⟩ := hEq
      subst h2
      subst h3
      subst h4
      simp [matchLoopF]
    | cons p pr =>
      cases pre with
      | nil =>
        have hfalse := matchLoopF_nil_path (f + 1) p pr rc prm
        rw [hEq] at hfalse
        simp at hfalse
      | cons q qt =>
        have happ : (q :: qt) ++ cont = q :: (qt ++ cont) := rfl
        simp only [matchLoopF, List.cons_append] at hEq ⊢
        split_ifs at hEq ⊢ with hcolon hlit
        · have hrest_ne : (captureName pr).2.1 ≠ [] := by
            intro hre
            simp only [captureName] at hre
            have hall := List.dropWhile_eq_nil_iff.mp hre
            cases pr with
            | nil =>
              simp at hlast
              subst hcolon
              exact absurd hlast (by decide)
            | cons r rs =>
              have hmem : '/' ∈ r :: rs :=
                mem_of_getLast?_eq
                  ((getLast?_cons_of_ne_nil (List.cons_ne_nil r rs)).symm.trans hlast)
              have := hall '/' hmem
              simp [isParamRune, isUnescaped] at this
          have hpr_ne : pr ≠ [] := by
            intro hpr
            subst hpr
            simp [captureName] at hrest_ne
          have hlast_rest : (captureName pr).2.1.getLast? = some '/' := by
            have h1 : (captureName pr).2.1 = pr.dropWhile isParamRune := rfl
            rw [h1]
            rw [dropWhile_getLast?_of_ne_nil isParamRune pr (h1 ▸ hrest_ne)]
            rw [← getLast?_cons_of_ne_nil hpr_ne]
            exact hlast
          have hpathRest_ne : (captureValue (q :: qt) (captureName pr).2.2).2 ≠ [] := by
            intro hpre
            rw [hpre] at hEq
            obtain ⟨r, rs, hrr⟩ := List.exists_cons_of_ne_nil hrest_ne
            rw [hrr] at hEq
            have hfalse := matchLoopF_nil_path f r rs rc
              (valuesAdd prm (":" ++ (captureName pr).1) (captureValue (q :: qt) (captureName pr).2.2).1)
            rw [hEq] at hfalse
            simp at hfalse
          have hCV : captureValue (q :: (qt ++ cont)) (captureName pr).2.2 =
              ((captureValue (q :: qt) (captureName pr).2.2).1,
               (captureValue (q :: qt) (captureName pr).2.2).2 ++ cont) := by
            have hdw : (q :: qt).dropWhile
                (fun c => c != (captureName pr).2.2 && c != '/') ≠ [] := hpathRest_ne
            rw [← happ]
            simp only [captureValue]
            rw [takeWhile_append_left _ _ _ hdw, dropWhile_append_left _ _ _ hdw]
          rw [hCV]
          have hflen : (captureName pr).2.1.length ≤ f := by
            have h1 : (captureName pr).2.1 = pr.dropWhile isParamRune := rfl
            have h2 := (List.dropWhile_sublist (l := pr) isParamRune).length_le
            simp only [List.length_cons] at hlen
            rw [h1]
            omega
          exact ih _ _ cont _ _ _ _ hflen hlast_rest hEq
        · cases pr with
          | nil =>
            simp only [matchLoopF, Prod.mk.injEq] at hEq
            obtain ⟨-, h2, h3, h4⟩ := hEq
            subst h2
            subst h3
            subst h4
            simp [matchLoopF]
          | cons r rs =>
            have hlast2 : (r :: rs).getLast? = some '/' :=
              (getLast?_cons_of_ne_nil (List.cons_ne_nil r rs)).symm.trans hlast
            have hflen : (r :: rs).length ≤ f := by
              simp only [List.length_cons] at hlen ⊢
              omega
            exact ih _ _ cont _ _ _ _ hflen hlast2 hEq
        · simp at hEq

lemma matchLoopF_literal (fuel : Nat) :
    ∀ (pat path : List Char) (rc : Nat) (prm : List (String × List String))
      (n : Nat) (prm2 : List (String × List String)) (rest : List Char),
      pat.length ≤ fuel → ':' ∉ pat →
      matchLoopF fuel pat path rc prm = (true, n, prm2, rest) →
      path = pat ++ rest ∧ prm2 = prm ∧ n = rc + pat.length := by
  induction fuel with
  | zero =>
    intro pat path rc prm n prm2 rest hlen hnc hEq
    cases pat with
    | nil =>
      simp only [matchLoopF, Prod.mk.injEq] at hEq
      obtain ⟨-, h2, h3, h4⟩ := hEq
      subst h2
      subst h3
      subst h4
      simp
    | cons p pr => simp at hlen
  | succ f ih =>
    intro pat path rc prm n prm2 rest hlen hnc hEq
    cases pat with
    | nil =>
      simp only [matchLoopF, Prod.mk.injEq] at hEq
      obtain ⟨-, h2, h3, h4⟩ := hEq
      subst h2
      subst h3
      subst h4
      simp
    | cons p pr =>
      cases path with
      | nil =>
        simp only [matchLoopF, Prod.mk.injEq] at hEq
        exact absurd hEq.1 (by simp)
      | cons q qt =>
        simp only [matchLoopF] at hEq
        split_ifs at hEq with hcolon hlit
        · exact absurd (hcolon ▸ List.mem_cons_self p pr) hnc
        · have hnc2 : ':' ∉ pr := fun hm => hnc (List.mem_cons_of_mem p hm)
          have hflen : pr.length ≤ f := by
            simp only [List.length_cons] at hlen
            omega
          obtain ⟨hpath, hprm, hn⟩ := ih pr qt (rc + 1) prm n prm2 rest hflen hnc2 hEq
          subst hlit
          refine ⟨by rw [hpath, List.cons_append], hprm, ?_⟩
          simp only [List.length_cons]
          omega
        · simp at hEq

lemma leaf_match_cases (pattern path : String)
    (hlast : pattern.data.getLast? ≠ some '/')
    (hmatch : (pathMatch pattern path).1 = true) :
    pattern = path ∨
      ∃ (n : Nat) (prm : List (String × List String)),
        matchLoop pattern.data path.data 0 [] = (true, n, prm, []) := by
  by_cases heq : pattern = path
  · exact Or.inl heq
  · right
    have hne : ¬pattern.length = 0 := by
      intro h0
      rw [string_eq_empty_of_length_zero h0] at hmatch
      simp [pathMatch] at hmatch
    rcases hML : matchLoop pattern.data path.data 0 [] with ⟨ok2, n2, prm3, rest2⟩
    by_cases hok : ok2 = false
    · exfalso
      simp [pathMatch, hML, hne, heq, hok] at hmatch
    · by_cases hrest : rest2 = []
      · refine ⟨n2, prm3, ?_⟩
        have hok2 : ok2 = true := by
          cases ok2
          · exact absurd rfl hok
          · rfl
        rw [hok2, hrest]
      · exfalso
        simp [pathMatch, hML, hne, heq, hok, hlast, hrest] at hmatch

/-- C3: a tree pattern (ending in a slash) whose code points are fully
consumed against a prefix of the path matches for every continuation of
the path, the empty continuation included; a leaf pattern matches only
when the path is fully consumed exactly where the pattern ends, so a
capture-free leaf pattern matches exactly the path equal to it. -/
theorem tree_leaf_semantics :
    (∀ (pattern : String) (pre cont : List Char) (n : Nat)
        (prm : List (String × List String)),
      pattern.data.getLast? = some '/' →
      matchLoop pattern.data pre 0 [] = (true, n, prm, []) →
      (pathMatch pattern (String.mk (pre ++ cont))).1 = true) ∧
    (∀ (pattern path : String),
      pattern.data.getLast? ≠ some '/' → (pathMatch pattern path).1 = true →
      pattern = path ∨
        ∃ (n : Nat) (prm : List (String × List String)),
          matchLoop pattern.data path.data 0 [] = (true, n, prm, [])) ∧
    (∀ (pattern path : String), ':' ∉ pattern.data →
      pattern.data.getLast? ≠ some '/' → (pathMatch pattern path).1 = true →
      path = pattern) := by
  refine ⟨?_, leaf_match_cases, ?_⟩
  · intro pattern pre cont n prm hlast hML
    have hne : ¬pattern.length = 0 := by
      intro h0
      rw [string_eq_empty_of_length_zero h0] at hlast
      simp at hlast
    simp only [matchLoop] at hML
    by_cases heq : pattern = String.mk (pre ++ cont)
    · rw [← heq]
      simp [pathMatch, hne]
    · have hext := matchLoopF_extend pattern.data.length pattern.data pre cont 0 []
        n prm le_rfl hlast hML
      have hext2 : matchLoopF pattern.length pattern.data (pre ++ cont) 0 [] =
          (true, n, prm, cont) := hext
      simp [pathMatch, matchLoop, hne, heq, hext, hext2, hlast]
  · intro pattern path hnc hlast hmatch
    rcases leaf_match_cases pattern path hlast hmatch with h | ⟨n, prm, hML⟩
    · exact h.symm
    · simp only [matchLoop] at hML
      obtain ⟨hpath, -, -⟩ := matchLoopF_literal pattern.data.length pattern.data
        path.data 0 [] n prm [] le_rfl hnc hML
      exact string_eq_of_data_eq (by simpa using hpath)

/-- Witness for C3: the tree pattern /t/ fully consumed against /t/
matches the continued path /t/xy. -/
theorem tree_leaf_semantics_witness :
    ("/t/" : String).data.getLast? = some '/' ∧
    matchLoop ("/t/" : String).data ("/t/" : String).data 0 [] = (true, 3, [], []) ∧
    (pathMatch "/t/" (String.mk (("/t/" : String).data ++ ['x', 'y']))).1 = true :=
  ⟨by decide, by decide,
    tree_leaf_semantics.1 "/t/" ("/t/" : String).data ['x', 'y'] 3 [] (by decide)
      (by decide)⟩

lemma matchStep_take (st : MatchState) (c : Candidate)
    (h : st.handler = none ∨ c.runeCount > st.n) :
    matchStep st c = { handler := c.route.handler
                       n := c.runeCount
                       pattern := c.route.pattern
                       params := c.params } := by
  simp only [matchStep]
  rw [if_pos h]
  split_ifs with h2 <;> rfl

lemma matchStep_tie (st : MatchState) (c : Candidate)
    (h1 : ¬(st.handler = none ∨ c.runeCount > st.n))
    (h2 : c.runeCount = st.n ∧ c.route.implicit = false) :
    matchStep st c = { handler := c.route.handler
                       n := st.n
                       pattern := c.route.pattern
                       params := c.params } := by
  simp only [matchStep]
  rw [if_neg h1, if_pos h2]

lemma matchStep_keep (st : MatchState) (c : Candidate)
    (h1 : ¬(st.handler = none ∨ c.runeCount > st.n))
    (h2 : ¬(c.runeCount = st.n ∧ c.route.implicit = false)) :
    matchStep st c = st := by
  simp only [matchStep]
  rw [if_neg h1, if_neg h2]

lemma matchStep_preserves (st : MatchState) (c : Candidate) (processed : List Candidate)
    (hInv : matchScanInv processed st) (hc : c.route.handler ≠ none) :
    matchScanInv (processed ++ [c]) (matchStep st c) := by
  rcases hInv with ⟨h1, h2, h3⟩ | ⟨hne, b, hbmem, hbh, hbn, hbp, hbpar, hmax, himpl⟩
  · subst h2
    subst h3
    rw [matchStep_take _ _ (Or.inl rfl)]
    refine Or.inr ⟨hc, c, by simp, rfl, rfl, rfl, rfl, ?_, ?_⟩
    · intro c2 h2m
      simp at h2m
      subst h2m
      exact le_refl _
    · intro himp c2 h2m
      simp at h2m
      subst h2m
      intro _
      exact himp
  · by_cases hgt : c.runeCount > st.n
    · rw [matchStep_take _ _ (Or.inr hgt)]
      refine Or.inr ⟨hc, c, List.mem_append_right _ (by simp), rfl, rfl, rfl, rfl, ?_, ?_⟩
      · intro c2 h2m
        rcases List.mem_append.mp h2m with h2m | h2m
        · exact le_trans (hmax c2 h2m) (le_of_lt hgt)
        · rw [List.mem_singleton] at h2m
          subst h2m
          exact le_refl _
      · intro himp c2 h2m h2n
        rcases List.mem_append.mp h2m with h2m | h2m
        · have hx := hmax c2 h2m
          dsimp only at h2n
          omega
        · rw [List.mem_singleton] at h2m
          subst h2m
          exact himp
    · have hle : c.runeCount ≤ st.n := le_of_not_lt hgt
      have hfirst : ¬(st.handler = none ∨ c.runeCount > st.n) := by
        intro hor
        rcases hor with hx | hx
        · exact hne hx
        · exact hgt hx
      by_cases htie : c.runeCount = st.n ∧ c.route.implicit = false
      · rw [matchStep_tie _ _ hfirst htie]
        refine Or.inr ⟨hc, c, List.mem_append_right _ (by simp), rfl, htie.1.symm, rfl, rfl,
          ?_, ?_⟩
        · intro c2 h2m
          rcases List.mem_append.mp h2m with h2m | h2m
          · exact hmax c2 h2m
          · rw [List.mem_singleton] at h2m
            subst h2m
            exact hle
        · intro himp
          rw [htie.2] at himp
          exact absurd himp (by simp)
      · rw [matchStep_keep _ _ hfirst htie]
        refine Or.inr ⟨hne, b, List.mem_append_left _ hbmem, hbh, hbn, hbp, hbpar, ?_, ?_⟩
        · intro c2 h2m
          rcases List.mem_append.mp h2m with h2m | h2m
          · exact hmax c2 h2m
          · rw [List.mem_singleton] at h2m
            subst h2m
            exact hle
        · intro himp c2 h2m h2n
          rcases List.mem_append.mp h2m with h2m | h2m
          · exact himpl himp c2 h2m h2n
          · rw [List.mem_singleton] at h2m
            subst h2m
            cases hci : c2.route.implicit
            · exact absurd ⟨h2n, hci⟩ htie
            · rfl

lemma matchFold_inv (l : List Candidate) :
    ∀ (processed : List Candidate) (st : MatchState),
      matchScanInv processed st → (∀ c ∈ l, c.route.handler ≠ none) →
      matchScanInv (processed ++ l) (l.foldl matchStep st) := by
  induction l with
  | nil =>
    intro processed st h _
    simpa using h
  | cons c rest ih =>
    intro processed st h hall
    have h1 := matchStep_preserves st c processed h (hall c (List.mem_cons_self c rest))
    have h2 := ih (processed ++ [c]) (matchStep st c) h1
      (fun c2 hm => hall c2 (List.mem_cons_of_mem c hm))
    simpa [List.append_assoc] using h2

/-- C1: among the candidates surviving pattern matching and rule
evaluation, the match scan returns a candidate with maximal literal rune
count, and when any explicit candidate ties at that count the returned
candidate is explicit; concretely, /notes/new resolves to /notes/new,
/notes/61 resolves to /notes/:identifier, and with /explicit registered
after /explicit/ the path /explicit resolves to the explicit route rather
than the implicit redirect. -/
theorem match_resolver_priority :
    (∀ (mux : ServeMux) (request : Request) (path : String),
      (∀ c ∈ muxCandidates mux request path, c.route.handler ≠ none) →
      muxCandidates mux request path ≠ [] →
      ∃ c ∈ muxCandidates mux request path,
        muxMatch mux request path = (c.route.handler, c.route.pattern, c.params) ∧
        (∀ c2 ∈ muxCandidates mux request path, c2.runeCount ≤ c.runeCount) ∧
        ((∃ c2 ∈ muxCandidates mux request path,
            c2.runeCount = c.runeCount ∧ c2.route.implicit = false) →
          c.route.implicit = false)) ∧
    muxHandler (foldRegisters [⟨"/notes/new", some (GoHandler.user 1), []⟩,
      ⟨"/notes/:identifier", some (GoHandler.user 2), []⟩]) { method := "GET", host := "" }
      "/notes/new" = (GoHandler.user 1, "/notes/new") ∧
    muxHandler (foldRegisters [⟨"/notes/new", some (GoHandler.user 1), []⟩,
      ⟨"/notes/:identifier", some (GoHandler.user 2), []⟩]) { method := "GET", host := "" }
      "/notes/61" = (GoHandler.user 2, "/notes/:identifier") ∧
    muxHandler (foldRegisters [⟨"/explicit/", some (GoHandler.user 3), []⟩,
      ⟨"/explicit", some (GoHandler.user 4), []⟩]) { method := "GET", host := "" }
      "/explicit" = (GoHandler.user 4, "/explicit") := by
  refine ⟨?_, by decide, by decide, by decide⟩
  intro mux request path hall hnonempty
  have hInv := matchFold_inv (muxCandidates mux request path) []
    { handler := none, n := 0, pattern := "", params := [] }
    (Or.inl ⟨rfl, rfl, rfl⟩) hall
  simp only [List.nil_append] at hInv
  rcases hInv with ⟨-, h2, -⟩ | ⟨-, c, hcmem, hch, hcn, hcp, hcpar, hmax, himpl⟩
  · exact absurd h2 hnonempty
  · refine ⟨c, hcmem, ?_, ?_, ?_⟩
    · simp only [muxMatch]
      rw [hch, hcp, hcpar]
    · intro c2 h2m
      have := hmax c2 h2m
      omega
    · rintro ⟨c2, hc2m, hc2n, hc2e⟩
      cases hci : c.route.implicit
      · rfl
      · have := himpl hci c2 hc2m (by omega)
        rw [this] at hc2e
        exact absurd hc2e (by simp)

/-- Witness for C1 at the concrete registry with /notes/new and
/notes/:identifier. -/
theorem match_resolver_priority_witness :
    (∀ c ∈ muxCandidates (foldRegisters [⟨"/notes/new", some (GoHandler.user 1), []⟩,
        ⟨"/notes/:identifier", some (GoHandler.user 2), []⟩])
      { method := "GET", host := "" } "/notes/new", c.route.handler ≠ none) ∧
    muxCandidates (foldRegisters [⟨"/notes/new", some (GoHandler.user 1), []⟩,
      ⟨"/notes/:identifier", some (GoHandler.user 2), []⟩])
      { method := "GET", host := "" } "/notes/new" ≠ [] ∧
    ∃ c ∈ muxCandidates (foldRegisters [⟨"/notes/new", some (GoHandler.user 1), []⟩,
        ⟨"/notes/:identifier", some (GoHandler.user 2), []⟩])
      { method := "GET", host := "" } "/notes/new",
      muxMatch (foldRegisters [⟨"/notes/new", some (GoHandler.user 1), []⟩,
        ⟨"/notes/:identifier", some (GoHandler.user 2), []⟩])
        { method := "GET", host := "" } "/notes/new" =
          (c.route.handler, c.route.pattern, c.params) ∧
      (∀ c2 ∈ muxCandidates (foldRegisters [⟨"/notes/new", some (GoHandler.user 1), []⟩,
          ⟨"/notes/:identifier", some (GoHandler.user 2), []⟩])
        { method := "GET", host := "" } "/notes/new", c2.runeCount ≤ c.runeCount) ∧
      ((∃ c2 ∈ muxCandidates (foldRegisters [⟨"/notes/new", some (GoHandler.user 1), []⟩,
            ⟨"/notes/:identifier", some (GoHandler.user 2), []⟩])
          { method := "GET", host := "" } "/notes/new",
          c2.runeCount = c.runeCount ∧ c2.route.implicit = false) →
        c.route.implicit = false) :=
  ⟨by decide, by decide,
    match_resolver_priority.1 (foldRegisters [⟨"/notes/new", some (GoHandler.user 1), []⟩,
      ⟨"/notes/:identifier", some (GoHandler.user 2), []⟩]) { method := "GET", host := "" }
      "/notes/new" (by decide) (by decide)⟩

end Warp
